import Mathlib

/-!
Verification development for the /r/ProgrammingLanguages discord channel
management bot (`bot.py`).  The definitions below are a shallow embedding of
the pure reconciliation core of the bot:

* `balanced_categories` / `unbalancedness` — the balanced partitioner;
* `sort_inner` — the rename + move reconciliation pass, with the in-memory
  position model (`recordMove`) that mirrors the position shifts the remote
  API performs on a move;
* `archive_inactive_inner` — the inactivity archiver (Python `timedelta.days`
  is floored division by 86400 seconds, modelled with `Int.fdiv`);
* `reposition_channel` — the single-channel incremental repositioner.

Channel names are modelled as `List Char` (Python strings compare
lexicographically by code point, which is the order `nameLt` implements).
Positions are modelled as `Int` (Python integers; the shift loops may in
principle drive them negative).  Fallible code paths (Python `IndexError` /
`KeyError` / `ValueError`) are modelled with `Option`.
-/

/-- Channel and category names: Python strings as lists of characters. -/
abbrev Name := List Char

/-- Lexicographic strict order on names; `nameLt a b` models Python `a < b`
on strings (code-point comparison). -/
def nameLt : Name → Name → Bool
  | [], [] => false
  | [], _ :: _ => true
  | _ :: _, [] => false
  | a :: as, b :: bs => if a < b then true else if b < a then false else nameLt as bs

/-- `nameLe a b` models Python `a <= b` on strings, i.e. `not (b < a)`. -/
def nameLe (a b : Name) : Bool := !(nameLt b a)

/-- A text channel as the reconciler sees it: stable id, display name,
current category id and current global integer position. -/
structure Channel where
  id : Nat
  name : Name
  categoryId : Nat
  position : Int
deriving DecidableEq

/-- A category: stable id and display name. -/
structure Cat where
  id : Nat
  name : Name
deriving DecidableEq

/-- `channel.name.upper()[0]` from the source: the uppercased first letter of
a channel name (total model; real channel names are nonempty). -/
def firstLetter (n : Name) : Char := (n.map Char.toUpper).headD 'A'

/-- The list is in (non-strictly) ascending name order; this is the state
`sorted(..., key=lambda ch: ch.name)` establishes. -/
abbrev sortedByName (l : List Channel) : Prop :=
  l.Chain' (fun a b => nameLe a.name b.name = true)

/-- Stable insertion of a channel into a name-ordered list (the element being
inserted comes earlier in the original sequence, so it goes before equals). -/
def insertByName (c : Channel) : List Channel → List Channel
  | [] => [c]
  | d :: ds => if nameLe c.name d.name then c :: d :: ds else d :: insertByName c ds

/-- Stable sort by name; models Python `sorted(channels, key=lambda ch: ch.name)`. -/
def sortByName : List Channel → List Channel
  | [] => []
  | c :: cs => insertByName c (sortByName cs)

/-- Stable insertion of a channel into a position-ordered list. -/
def insertByPos (c : Channel) : List Channel → List Channel
  | [] => [c]
  | d :: ds => if c.position ≤ d.position then c :: d :: ds else d :: insertByPos c ds

/-- Stable sort by position. -/
def sortByPos : List Channel → List Channel
  | [] => []
  | c :: cs => insertByPos c (sortByPos cs)

/-- `category.channels`: the channels currently in a category, in position
order. -/
def catChannels (chans : List Channel) (catId : Nat) : List Channel :=
  sortByPos (chans.filter (fun c => c.categoryId == catId))

/-- `unbalancedness(separator_idxs)` from the source: the sum of squared
differences of adjacent entries of a boundary list. -/
def unbalancedness : List Nat → Int
  | a :: b :: rest => ((b : Int) - (a : Int)) ^ 2 + unbalancedness (b :: rest)
  | _ => 0

/-- `itertools.combinations(l, r)`: all length-`r` sublists of `l`, in the
lexicographic order of positions that Python enumerates. -/
def combinations : Nat → List α → List (List α)
  | 0, _ => [[]]
  | _ + 1, [] => []
  | r + 1, x :: xs => (combinations r xs).map (fun t => x :: t) ++ combinations (r + 1) xs

/-- The running state of Python `min(iterable, key=f)`: scan the tail keeping
the first element seen with the strictly smallest key. -/
def minByFold (f : α → Int) (best : α) : List α → α
  | [] => best
  | y :: ys => minByFold f (if f y < f best then y else best) ys

/-- Python `min(l, key=f)`; `none` on the empty list (`ValueError`). -/
def minBy (f : α → Int) : List α → Option α
  | [] => none
  | x :: xs => some (minByFold f x xs)

/-- The index-scanning loop of `balanced_categories`: indices (counting from
`i`) at which the uppercased first letter differs from the previous one. -/
def letterChangesFrom (prev : Char) (i : Nat) : List Channel → List Nat
  | [] => []
  | c :: cs =>
    if firstLetter c.name ≠ prev then i :: letterChangesFrom (firstLetter c.name) (i + 1) cs
    else letterChangesFrom prev (i + 1) cs

/-- `letter_change_idxs`: index 0 plus every index where the uppercase first
letter changes (the scan starts at index 0 with `prev` set to the first
channel's letter, so index 0 is never emitted twice). -/
def letterChangeIdxs (chans : List Channel) : List Nat :=
  match chans with
  | [] => [0]
  | c :: _ => 0 :: letterChangesFrom (firstLetter c.name) 0 chans

/-- `best_partition` of `balanced_categories`: `[0, *min(combinations(...))]`.
`none` models the `IndexError` on an empty channel list and the `ValueError`
of `min` on an empty iterator (`len(categories) - 1` too large), and the
degenerate empty category list. -/
def bestPartition (cats : List Nat) (chans : List Channel) : Option (List Nat) :=
  if chans.isEmpty then none
  else if cats.isEmpty then none
  else
    (minBy (fun p => unbalancedness ((0 :: p) ++ [chans.length]))
        (combinations (cats.length - 1) (letterChangeIdxs chans))).map
      (fun p => 0 :: p)

/-- The dict-building loop of `balanced_categories`, already handed the
`reversed(list(zip(best_partition, categories)))` pairs: repeatedly slice off
`channels[start_idx:]` and continue with `channels[:start_idx]`. -/
def assignCats : List (Nat × Nat) → List Channel → List (Nat × List Channel)
  | [], _ => []
  | (start, cid) :: rest, chans => (cid, chans.drop start) :: assignCats rest (chans.take start)

/-- `balanced_categories(categories, channels)`: the mapping from category id
to its channel slice (a Python dict, modelled as the association list in its
insertion order, which is reversed category order). -/
def balanced_categories (cats : List Nat) (chans : List Channel) :
    Option (List (Nat × List Channel)) :=
  match bestPartition cats chans with
  | none => none
  | some best => some (assignCats ((best.zip cats).reverse) chans)

/-- Dict lookup `category_channels[cat_id]`. -/
def lookupSeg (m : List (Nat × List Channel)) (catId : Nat) : Option (List Channel) :=
  (m.find? (fun e => e.1 == catId)).map (fun e => e.2)

/-- The partition's segments listed in the given category order (the
association list is built in reversed category order). -/
def planSegs (m : List (Nat × List Channel)) : List (List Channel) :=
  (m.map (fun e => e.2)).reverse

/-- The literal name part `"Projects "`. -/
def projectsLabel : Name := ['P', 'r', 'o', 'j', 'e', 'c', 't', 's', ' ']

/-- `f"Projects {start_letter}-{end_letter}"` for a category's channel slice;
`none` models the `IndexError` of `cat_channels[0]` on an empty slice. -/
def spanName (seg : List Channel) : Option Name :=
  match seg.head?, seg.getLast? with
  | some a, some b => some (projectsLabel ++ [firstLetter a.name, '-', firstLetter b.name])
  | _, _ => none

/-- Rename the category with the given id. -/
def renameCat (cats : List Cat) (cid : Nat) (nm : Name) : List Cat :=
  cats.map (fun c => if c.id == cid then { c with name := nm } else c)

/-- The category-renaming loop of `sort_inner`, iterating over the partition
dict in insertion order; returns the updated categories and the number of
renames made.  `none` models the `IndexError` on an empty slice and the
failed `discord.utils.get` lookup. -/
def renameAll (cats : List Cat) : List (Nat × List Channel) → Option (List Cat × Nat)
  | [] => some (cats, 0)
  | (cid, seg) :: rest =>
    match spanName seg with
    | none => none
    | some nm =>
      match cats.find? (fun c => c.id == cid) with
      | none => none
      | some cat =>
        if cat.name == nm then renameAll cats rest
        else
          match renameAll (renameCat cats cid nm) rest with
          | none => none
          | some (cs, n) => some (cs, n + 1)

/-- The per-channel position update of a recorded move: channels in
`[new_pos, old_pos)` move up by one when the channel moves up, channels in
`(old_pos, new_pos]` move down by one when it moves down. -/
def shiftFor (oldPos newPos p : Int) : Int :=
  if oldPos > newPos then (if newPos ≤ p ∧ p < oldPos then p + 1 else p)
  else (if oldPos < p ∧ p ≤ newPos then p - 1 else p)

/-- Record one move in the in-memory model (`sort_inner` lines: the two shift
loops followed by `channel.category_id = ...; channel.position = new_pos`):
every other channel's position is shifted, the moved channel gets the target
category and position. -/
def recordMove (chans : List Channel) (cid newCat : Nat) (oldPos newPos : Int) :
    List Channel :=
  chans.map (fun c =>
    if c.id == cid then { c with categoryId := newCat, position := newPos }
    else { c with position := shiftFor oldPos newPos c.position })

/-- One iteration of the channel-shuffling loop of `sort_inner` for planned
channel `chId` at slot `i` of category `catId`.  Returns the updated state and
whether a move was recorded; `none` models the `IndexError` of
`cat_channels[-1]` on an empty category. -/
def moveStep (chans : List Channel) (catId : Nat) (i : Nat) (chId : Nat) :
    Option (List Channel × Bool) :=
  match chans.find? (fun c => c.id == chId) with
  | none => none
  | some channel =>
    let catChans := catChannels chans catId
    match
      (match catChans[i]? with
       | some target => some (target.position, target.id != chId)
       | none =>
         match catChans.getLast? with
         | some lastC => some (lastC.position + 1, lastC.id != chId)
         | none => none) with
    | none => none
    | some (newPos, needsMove) =>
      if channel.categoryId != catId || needsMove then
        some (recordMove chans chId catId channel.position newPos, true)
      else some (chans, false)

/-- The inner `for i, channel in enumerate(category_channels[category.id])`
loop, threading the state and counting moves. -/
def movesForCat (catId : Nat) : List Nat → Nat → List Channel → Option (List Channel × Nat)
  | [], _, chans => some (chans, 0)
  | cid :: rest, i, chans =>
    match moveStep chans catId i cid with
    | none => none
    | some (chans1, moved) =>
      match movesForCat catId rest (i + 1) chans1 with
      | none => none
      | some (chans2, n) => some (chans2, n + (if moved then 1 else 0))

/-- The outer `for category in categories` loop of the channel-shuffling
phase; `none` also models the `KeyError` of a missing dict entry. -/
def movesAll (catIds : List Nat) (plan : List (Nat × List Channel)) :
    List Channel → Option (List Channel × Nat)
  | chans =>
    match catIds with
    | [] => some (chans, 0)
    | cid :: rest =>
      match lookupSeg plan cid with
      | none => none
      | some seg =>
        match movesForCat cid (seg.map (fun c => c.id)) 0 chans with
        | none => none
        | some (chans1, n) =>
          match movesAll rest plan chans1 with
          | none => none
          | some (chans2, m) => some (chans2, n + m)

/-- `sort_inner(guild, ...)`: collect the managed channels in category order,
sort by name, partition, rename categories, shuffle channels.  Returns the
renamed categories, the final channel state, the number of renames and the
number of moves.  The remote `channel.edit` calls are mirrored exactly by the
in-memory model, so the state threaded here is the post-run snapshot. -/
def sort_inner (cats : List Cat) (chans : List Channel) :
    Option (List Cat × List Channel × Nat × Nat) :=
  let channels := sortByName (cats.flatMap (fun c => catChannels chans c.id))
  match balanced_categories (cats.map (fun c => c.id)) channels with
  | none => none
  | some plan =>
    match renameAll cats plan with
    | none => none
    | some (cats1, renames) =>
      match movesAll (cats.map (fun c => c.id)) plan chans with
      | none => none
      | some (chans1, moves) => some (cats1, chans1, renames, moves)

/-- Run `sort_inner` twice in a row on its own output and report the second
run's (renames, moves) counters. -/
def runTwice (cats : List Cat) (chans : List Channel) : Option (Nat × Nat) :=
  match sort_inner cats chans with
  | none => none
  | some (cats1, chans1, _, _) =>
    match sort_inner cats1 chans1 with
    | none => none
    | some (_, _, r2, m2) => some (r2, m2)

/-- A channel as the archiver sees it: id and the creation time (in seconds)
of its most recent message, `none` when the channel has no messages at all
(an empty history, so `last_message, *_ = ...` has nothing to unpack). -/
structure MChannel where
  id : Nat
  lastMessage : Option Int
deriving DecidableEq

/-- `(datetime.now() - last_message.created_at).days`: Python `timedelta`
normalises to whole days by flooring, i.e. floor division of the elapsed
seconds by 86400. -/
def timedeltaDays (now last : Int) : Int := Int.fdiv (now - last) 86400

/-- The archiving decision of `archive_inactive_inner`: the channel is
archived unless `time_since.days <= 90`. -/
def isInactive (now last : Int) : Bool := !(timedeltaDays now last ≤ 90)

/-- `archive_inactive_inner`: walk the managed channels.  For every channel
the source unpacks `last_message, *_ = await channel.history(limit=1).flatten()`;
on a channel with no messages the unpacking of the empty list raises
`ValueError`, which the surrounding `except IndexError: continue` clause does
NOT catch, so the whole pass aborts there (`none`) and later channels are
never examined.  Otherwise the channel is skipped when
`time_since.days <= 90` and archived when not.  On success, returns the list
of archived channels in order. -/
def archive_inactive_inner (now : Int) : List MChannel → Option (List MChannel)
  | [] => some []
  | c :: cs =>
    match c.lastMessage with
    | none => none
    | some t =>
      if isInactive now t then (archive_inactive_inner now cs).map (fun l => c :: l)
      else archive_inactive_inner now cs

/-- The peer-scanning loop of `reposition_channel`, carrying the `category`
and `position` variables; the `for ... else` branch adds one to the position
when the loop finishes without breaking. -/
def repositionLoop (chName : Name) (cat : Option Nat) (pos : Int) :
    List Channel → Option Nat × Int
  | [] => (cat, pos + 1)
  | c :: cs =>
    if nameLt chName c.name then
      ((if cat.isNone then some c.categoryId else cat), c.position)
    else repositionLoop chName (some c.categoryId) c.position cs

/-- `reposition_channel(channel, project_categories)`: the peers (all managed
channels except the channel itself) are sorted by name and scanned; returns
the target `(category, position)` passed to `channel.edit`. -/
def reposition_channel (chName : Name) (peers : List Channel) : Option Nat × Int :=
  repositionLoop chName none 0 (sortByName peers)

/-! Concrete data used to instantiate the claims. -/

/-- The five channels of the worked scenario, in the given order
(first letters A, A, B, C, D). -/
def chans5 : List Channel :=
  [⟨1, "Apple".toList, 9, 0⟩, ⟨2, "Ant".toList, 9, 1⟩, ⟨3, "Banana".toList, 9, 2⟩,
   ⟨4, "Cherry".toList, 9, 3⟩, ⟨5, "Date".toList, 9, 4⟩]

/-- Categories A and B of the worked scenario. -/
def cats5 : List Cat := [⟨1, "catA".toList⟩, ⟨2, "catB".toList⟩]

/-- Two project categories whose names already carry the spans the
reconciler will compute. -/
def c3cats : List Cat := [⟨1, "Projects A-A".toList⟩, ⟨2, "Projects B-C".toList⟩]

/-- A drift-free snapshot: `apple` sits in category 1 and `bee`, `cow` in
category 2, while the balanced partition wants `bat`, `bee`, `cow` (in that
name order) in category 2. -/
def c3chans : List Channel :=
  [⟨10, "apple".toList, 1, 1⟩, ⟨11, "bat".toList, 1, 2⟩,
   ⟨12, "cow".toList, 2, 3⟩, ⟨13, "bee".toList, 2, 4⟩]

/-- Two channels at positions 2 and 5 of the same category. -/
def c4chans : List Channel := [⟨1, "a".toList, 7, 2⟩, ⟨2, "b".toList, 7, 5⟩]

/-- Channels/categories exercising the degenerate partition: one first
letter, two categories. -/
def c9chans : List Channel := [⟨1, "ant".toList, 1, 0⟩, ⟨2, "ape".toList, 2, 1⟩]

/-- The category records matching `c9chans`. -/
def c9cats : List Cat := [⟨1, "Projects A-A".toList⟩, ⟨2, "Projects A-A".toList⟩]

/-- Sorted witness channels for the partition claims. -/
def chansW : List Channel :=
  [⟨1, "Ant".toList, 9, 0⟩, ⟨2, "Apple".toList, 9, 1⟩, ⟨3, "Banana".toList, 9, 2⟩,
   ⟨4, "Cherry".toList, 9, 3⟩, ⟨5, "Date".toList, 9, 4⟩]

/-- The peers of the Mango scenario: Apple and Banana in category 7, Peach
and Zebra in category 8. -/
def mangoPeers : List Channel :=
  [⟨1, "Apple".toList, 7, 0⟩, ⟨2, "Banana".toList, 7, 1⟩,
   ⟨3, "Peach".toList, 8, 2⟩, ⟨4, "Zebra".toList, 8, 3⟩]

/-! Helper lemmas. -/

theorem shiftFor_ne_new (oldPos newPos p : Int) (h : p ≠ oldPos) :
    shiftFor oldPos newPos p ≠ newPos := by
  unfold shiftFor
  split_ifs <;> omega

theorem shiftFor_inj (oldPos newPos p q : Int) (hp : p ≠ oldPos) (hq : q ≠ oldPos)
    (hne : p ≠ q) : shiftFor oldPos newPos p ≠ shiftFor oldPos newPos q := by
  unfold shiftFor
  split_ifs <;> omega

/-! Lemmas about `minByFold`, `combinations` and the letter scan. -/

theorem minByFold_spec (f : α → Int) :
    ∀ (l : List α) (best : α),
      (f (minByFold f best l) ≤ f best ∧ ∀ y ∈ l, f (minByFold f best l) ≤ f y) ∧
      (minByFold f best l = best ∨
        ∃ pre post, l = pre ++ minByFold f best l :: post ∧
          f (minByFold f best l) < f best ∧
          ∀ z ∈ pre, f (minByFold f best l) < f z) := by
  intro l
  induction l with
  | nil =>
    intro best
    exact ⟨⟨le_refl _, by simp⟩, Or.inl rfl⟩
  | cons y ys ih =>
    intro best
    simp only [minByFold]
    by_cases hy : f y < f best
    · rw [if_pos hy]
      obtain ⟨⟨h1, h2⟩, h3⟩ := ih y
      refine ⟨⟨le_trans h1 (le_of_lt hy), ?_⟩, ?_⟩
      · intro z hz
        rcases List.mem_cons.mp hz with rfl | hz
        · exact h1
        · exact h2 z hz
      · rcases h3 with heq | ⟨pre, post, hsplit, hlt, hpre⟩
        · refine Or.inr ⟨[], ys, ?_, ?_, by simp⟩
          · simp [heq]
          · rw [heq]; exact hy
        · refine Or.inr ⟨y :: pre, post, ?_, lt_trans hlt hy, ?_⟩
          · simp only [List.cons_append]
            exact congrArg (List.cons y) hsplit
          · intro z hz
            rcases List.mem_cons.mp hz with rfl | hz
            · exact hlt
            · exact hpre z hz
    · rw [if_neg hy]
      obtain ⟨⟨h1, h2⟩, h3⟩ := ih best
      have hby : f best ≤ f y := le_of_not_lt hy
      refine ⟨⟨h1, ?_⟩, ?_⟩
      · intro z hz
        rcases List.mem_cons.mp hz with rfl | hz
        · exact le_trans h1 hby
        · exact h2 z hz
      · rcases h3 with heq | ⟨pre, post, hsplit, hlt, hpre⟩
        · exact Or.inl heq
        · refine Or.inr ⟨y :: pre, post, ?_, hlt, ?_⟩
          · simp only [List.cons_append]
            exact congrArg (List.cons y) hsplit
          · intro z hz
            rcases List.mem_cons.mp hz with rfl | hz
            · exact lt_of_lt_of_le hlt hby
            · exact hpre z hz

theorem minBy_spec (f : α → Int) (l : List α) (m : α) (h : minBy f l = some m) :
    (∀ y ∈ l, f m ≤ f y) ∧
    ∃ pre post, l = pre ++ m :: post ∧ ∀ z ∈ pre, f m < f z := by
  cases l with
  | nil => cases h
  | cons x xs =>
    have hm : minByFold f x xs = m := by
      simpa only [minBy, Option.some.injEq] using h
    obtain ⟨⟨h1, h2⟩, h3⟩ := minByFold_spec f xs x
    rw [hm] at h1 h2 h3
    constructor
    · intro y hy
      rcases List.mem_cons.mp hy with rfl | hy
      · exact h1
      · exact h2 y hy
    · rcases h3 with heq | ⟨pre, post, hsplit, hlt, hpre⟩
      · exact ⟨[], xs, by simp [heq], by simp⟩
      · refine ⟨x :: pre, post, ?_, ?_⟩
        · simp only [List.cons_append]
          exact congrArg (List.cons x) hsplit
        · intro z hz
          rcases List.mem_cons.mp hz with rfl | hz
          · exact hlt
          · exact hpre z hz

theorem mem_combinations (l : List α) :
    ∀ (r : Nat) (p : List α), p ∈ combinations r l → p.Sublist l ∧ p.length = r := by
  induction l with
  | nil =>
    intro r p hp
    cases r with
    | zero =>
      simp only [combinations, List.mem_singleton] at hp
      subst hp
      exact ⟨List.Sublist.refl _, rfl⟩
    | succ n => simp [combinations] at hp
  | cons x xs ih =>
    intro r p hp
    cases r with
    | zero =>
      simp only [combinations, List.mem_singleton] at hp
      subst hp
      exact ⟨List.nil_sublist _, rfl⟩
    | succ n =>
      simp only [combinations, List.mem_append, List.mem_map] at hp
      rcases hp with ⟨t, ht, rfl⟩ | hp
      · obtain ⟨hs, hl⟩ := ih n t ht
        exact ⟨hs.cons₂ x, by simp [hl]⟩
      · obtain ⟨hs, hl⟩ := ih (n + 1) p hp
        exact ⟨hs.cons x, hl⟩

theorem combinations_eq_nil (l : List α) :
    ∀ r : Nat, l.length < r → combinations r l = [] := by
  induction l with
  | nil =>
    intro r hr
    cases r with
    | zero => omega
    | succ n => rfl
  | cons x xs ih =>
    intro r hr
    cases r with
    | zero => simp at hr
    | succ n =>
      simp only [List.length_cons] at hr
      simp only [combinations, ih n (by omega), ih (n + 1) (by omega), List.map_nil,
        List.append_nil]

theorem take_mem_combinations (l : List α) :
    ∀ r : Nat, r ≤ l.length → l.take r ∈ combinations r l := by
  induction l with
  | nil =>
    intro r hr
    have : r = 0 := by simpa using hr
    subst this
    simp [combinations]
  | cons x xs ih =>
    intro r hr
    cases r with
    | zero => simp [combinations]
    | succ n =>
      simp only [combinations, List.take_succ_cons, List.mem_append, List.mem_map]
      exact Or.inl ⟨xs.take n, ih n (by simpa using hr), rfl⟩

theorem combinations_full (l : List α) : combinations l.length l = [l] := by
  induction l with
  | nil => rfl
  | cons x xs ih =>
    simp only [List.length_cons, combinations, ih,
      combinations_eq_nil xs (xs.length + 1) (by omega), List.map_cons, List.map_nil,
      List.append_nil]

theorem letterChangesFrom_ge (l : List Channel) :
    ∀ (prev : Char) (i : Nat), ∀ m ∈ letterChangesFrom prev i l, i ≤ m := by
  induction l with
  | nil => intro prev i m hm; cases hm
  | cons c cs ih =>
    intro prev i m hm
    simp only [letterChangesFrom] at hm
    by_cases h : firstLetter c.name ≠ prev
    · rw [if_pos h] at hm
      rcases List.mem_cons.mp hm with rfl | hm
      · exact le_refl _
      · exact le_trans (by omega) (ih _ (i + 1) m hm)
    · rw [if_neg h] at hm
      exact le_trans (by omega) (ih prev (i + 1) m hm)

theorem letterChangesFrom_chain (l : List Channel) :
    ∀ (prev : Char) (i : Nat), (letterChangesFrom prev i l).Chain' (fun a b => a < b) := by
  induction l with
  | nil => intro prev i; simp [letterChangesFrom]
  | cons c cs ih =>
    intro prev i
    simp only [letterChangesFrom]
    by_cases h : firstLetter c.name ≠ prev
    · rw [if_pos h]
      refine List.chain'_cons'.mpr ⟨?_, ih _ (i + 1)⟩
      intro y hy
      have hmem : y ∈ letterChangesFrom (firstLetter c.name) (i + 1) cs :=
        List.mem_of_mem_head? hy
      have := letterChangesFrom_ge cs (firstLetter c.name) (i + 1) y hmem
      omega
    · rw [if_neg h]
      exact ih prev (i + 1)

theorem letterChangesFrom_adjacent (l : List Channel) :
    ∀ (prev : Char) (i : Nat), ∀ m ∈ letterChangesFrom prev i l,
      ∃ j, m = i + j ∧ ∃ b, l[j]? = some b ∧
        ((j = 0 ∧ firstLetter b.name ≠ prev) ∨
         (0 < j ∧ ∃ a, l[j - 1]? = some a ∧ firstLetter b.name ≠ firstLetter a.name)) := by
  induction l with
  | nil => intro prev i m hm; cases hm
  | cons c cs ih =>
    intro prev i m hm
    simp only [letterChangesFrom] at hm
    by_cases h : firstLetter c.name ≠ prev
    · rw [if_pos h] at hm
      rcases List.mem_cons.mp hm with rfl | hm
      · exact ⟨0, by omega, c, by simp, Or.inl ⟨rfl, h⟩⟩
      · obtain ⟨j, hj, b, hb, hcase⟩ := ih (firstLetter c.name) (i + 1) m hm
        refine ⟨j + 1, by omega, b, by simpa using hb, Or.inr ⟨by omega, ?_⟩⟩
        rcases hcase with ⟨hj0, hne⟩ | ⟨hjpos, a, ha, hne⟩
        · subst hj0
          exact ⟨c, by simp, hne⟩
        · refine ⟨a, ?_, hne⟩
          have : j + 1 - 1 = (j - 1) + 1 := by omega
          rw [this]
          simpa using ha
    · rw [if_neg h] at hm
      push_neg at h
      obtain ⟨j, hj, b, hb, hcase⟩ := ih prev (i + 1) m hm
      refine ⟨j + 1, by omega, b, by simpa using hb, Or.inr ⟨by omega, ?_⟩⟩
      rcases hcase with ⟨hj0, hne⟩ | ⟨hjpos, a, ha, hne⟩
      · subst hj0
        refine ⟨c, by simp, ?_⟩
        rw [h]
        exact hne
      · refine ⟨a, ?_, hne⟩
        have : j + 1 - 1 = (j - 1) + 1 := by omega
        rw [this]
        simpa using ha

theorem letterChangeIdxs_spec (chans : List Channel) (hne : chans ≠ []) :
    ∀ m ∈ letterChangeIdxs chans, m = 0 ∨
      (0 < m ∧ ∃ a b, chans[m - 1]? = some a ∧ chans[m]? = some b ∧
        firstLetter b.name ≠ firstLetter a.name) := by
  intro m hm
  match chans, hne with
  | c :: cs, _ =>
    simp only [letterChangeIdxs] at hm
    rcases List.mem_cons.mp hm with rfl | hm
    · exact Or.inl rfl
    · obtain ⟨j, hj, b, hb, hcase⟩ :=
        letterChangesFrom_adjacent (c :: cs) (firstLetter c.name) 0 m hm
      have hmj : m = j := by omega
      subst hmj
      rcases hcase with ⟨hj0, hne'⟩ | ⟨hjpos, a, ha, hne'⟩
      · subst hj0
        simp only [List.getElem?_cons_zero, Option.some.injEq] at hb
        subst hb
        exact absurd rfl hne'
      · exact Or.inr ⟨by omega, a, b, ha, hb, hne'⟩

theorem letterChangeIdxs_lt_length (chans : List Channel) (hne : chans ≠ []) :
    ∀ m ∈ letterChangeIdxs chans, m < chans.length := by
  intro m hm
  rcases letterChangeIdxs_spec chans hne m hm with rfl | ⟨_, a, b, ha, hb, _⟩
  · cases chans with
    | nil => exact absurd rfl hne
    | cons c cs => simp
  · obtain ⟨hlt, _⟩ := List.getElem?_eq_some_iff.mp hb
    exact hlt

theorem letterChangeIdxs_chain (chans : List Channel) :
    (letterChangeIdxs chans).Chain' (fun a b => a < b) := by
  cases chans with
  | nil => simp [letterChangeIdxs]
  | cons c cs =>
    simp only [letterChangeIdxs]
    refine List.chain'_cons'.mpr ⟨?_, letterChangesFrom_chain _ _ _⟩
    intro y hy
    have hmem : y ∈ letterChangesFrom (firstLetter c.name) 0 (c :: cs) :=
      List.mem_of_mem_head? hy
    obtain ⟨j, hj, b, hb, hcase⟩ :=
      letterChangesFrom_adjacent (c :: cs) (firstLetter c.name) 0 y hmem
    rcases hcase with ⟨hj0, hne'⟩ | ⟨hjpos, _⟩
    · subst hj0
      simp only [List.getElem?_cons_zero, Option.some.injEq] at hb
      subst hb
      exact absurd rfl hne'
    · omega

theorem chain_ge_head (s : Nat) (t : List Nat)
    (h : (s :: t).Chain' (fun a b => b ≤ a)) : ∀ x ∈ t, x ≤ s := by
  induction t generalizing s with
  | nil => intro x hx; cases hx
  | cons u t' ih =>
    intro x hx
    have h1 : u ≤ s := (List.chain'_cons.mp h).1
    rcases List.mem_cons.mp hx with rfl | hx
    · exact h1
    · exact le_trans (ih u (List.chain'_cons.mp h).2 x hx) h1

/-! Lemmas about `assignCats` and `bestPartition`. -/

theorem assignCats_length :
    ∀ (pairs : List (Nat × Nat)) (chans : List Channel),
      (assignCats pairs chans).length = pairs.length := by
  intro pairs
  induction pairs with
  | nil => intro chans; rfl
  | cons p rest ih =>
    intro chans
    obtain ⟨s, c⟩ := p
    simp [assignCats, ih]

theorem assignCats_ne_nil (pairs : List (Nat × Nat)) (chans : List Channel)
    (h : pairs ≠ []) : assignCats pairs chans ≠ [] := by
  cases pairs with
  | nil => exact absurd rfl h
  | cons p rest =>
    obtain ⟨s, c⟩ := p
    simp [assignCats]

theorem assignCats_flatten :
    ∀ (pairs : List (Nat × Nat)) (cid : Nat) (chans : List Channel),
      (((assignCats (pairs ++ [(0, cid)]) chans).map (fun e => e.2)).reverse).flatten =
        chans := by
  intro pairs
  induction pairs with
  | nil =>
    intro cid chans
    simp [assignCats]
  | cons p rest ih =>
    intro cid chans
    obtain ⟨s, c⟩ := p
    have hM : ((assignCats (((s, c) :: rest) ++ [(0, cid)]) chans).map
        (fun e => e.2)).reverse
        = ((assignCats (rest ++ [(0, cid)]) (chans.take s)).map (fun e => e.2)).reverse
          ++ [chans.drop s] := by
      simp [assignCats]
    rw [hM, List.flatten_append, ih cid (chans.take s)]
    simp

theorem assignCats_split :
    ∀ (pairs : List (Nat × Nat)) (c0 : Nat) (chans : List Channel)
      (sA sB : List (List Channel)),
      ((assignCats (pairs ++ [(0, c0)]) chans).map (fun e => e.2)).reverse = sA ++ sB →
      sA ≠ [] → sB ≠ [] →
      ((pairs ++ [(0, c0)]).map Prod.fst).Chain' (fun a b => b ≤ a) →
      (∀ x ∈ (pairs ++ [(0, c0)]).map Prod.fst, x ≤ chans.length) →
      ∃ cut, cut ∈ pairs.map Prod.fst ∧ sA.flatten = chans.take cut ∧
        sB.flatten = chans.drop cut := by
  intro pairs
  induction pairs with
  | nil =>
    intro c0 chans sA sB heq hA hB _ _
    exfalso
    have hlen : (sA ++ sB).length = 1 := by
      rw [← heq]; simp [assignCats]
    rcases sA with _ | ⟨a, sA'⟩
    · exact hA rfl
    rcases sB with _ | ⟨b, sB'⟩
    · exact hB rfl
    simp at hlen
  | cons p rest ih =>
    intro c0 chans sA sB heq hA hB hchain hbound
    obtain ⟨s, c⟩ := p
    have hM : ((assignCats (((s, c) :: rest) ++ [(0, c0)]) chans).map
        (fun e => e.2)).reverse
        = ((assignCats (rest ++ [(0, c0)]) (chans.take s)).map (fun e => e.2)).reverse
          ++ [chans.drop s] := by
      simp [assignCats]
    rw [hM] at heq
    rcases List.eq_nil_or_concat sB with rfl | ⟨sB', b, rfl⟩
    · exact absurd rfl hB
    simp only [List.concat_eq_append] at heq hB ⊢
    rw [← List.append_assoc] at heq
    obtain ⟨h1, h2⟩ := List.append_inj' heq.symm rfl
    have hb : b = chans.drop s := by
      simpa using h2
    have hchainTail :
        ((rest ++ [(0, c0)]).map Prod.fst).Chain' (fun a b => b ≤ a) := by
      have := hchain
      simp only [List.cons_append, List.map_cons] at this
      exact this.tail
    have hheads : ∀ x ∈ (rest ++ [(0, c0)]).map Prod.fst, x ≤ s := by
      intro x hx
      apply chain_ge_head s ((rest ++ [(0, c0)]).map Prod.fst) _ x hx
      have := hchain
      simpa only [List.cons_append, List.map_cons] using this
    rcases sB' with _ | ⟨b0, sB''⟩
    · -- the split is exactly before the final segment
      refine ⟨s, by simp, ?_, ?_⟩
      · have hAeq : sA =
            ((assignCats (rest ++ [(0, c0)]) (chans.take s)).map (fun e => e.2)).reverse := by
          simpa using h1
        rw [hAeq, assignCats_flatten]
      · rw [hb]
        simp
    · -- the split is inside the earlier segments
      have hB' : (b0 :: sB'') ≠ [] := by simp
      have hbound' : ∀ x ∈ (rest ++ [(0, c0)]).map Prod.fst,
          x ≤ (chans.take s).length := by
        intro x hx
        have hxs : x ≤ s := hheads x hx
        have hxN : x ≤ chans.length := by
          apply hbound
          simp only [List.cons_append, List.map_cons]
          exact List.mem_cons_of_mem _ hx
        simp only [List.length_take]
        omega
      obtain ⟨cut, hcut, hAflat, hBflat⟩ :=
        ih c0 (chans.take s) sA (b0 :: sB'') h1.symm hA hB' hchainTail hbound'
      have hcs : cut ≤ s := by
        apply hheads
        rcases List.mem_map.mp hcut with ⟨e, he, rfl⟩
        exact List.mem_map_of_mem Prod.fst (List.mem_append_left _ he)
      have hcN : cut ≤ chans.length := by
        apply hbound
        simp only [List.cons_append, List.map_cons]
        refine List.mem_cons_of_mem _ ?_
        rcases List.mem_map.mp hcut with ⟨e, he, rfl⟩
        exact List.mem_map_of_mem Prod.fst (List.mem_append_left _ he)
      refine ⟨cut, List.mem_cons_of_mem _ hcut, ?_, ?_⟩
      · rw [hAflat, List.take_take]
        congr 1
        omega
      · have hdecomp : chans.drop cut = (chans.take s).drop cut ++ chans.drop s := by
          conv_lhs => rw [← List.take_append_drop s chans]
          rw [List.drop_append_of_le_length]
          simp only [List.length_take]
          omega
        rw [List.flatten_append, hBflat, hb, hdecomp]
        simp

theorem bestPartition_spec (cats : List Nat) (chans : List Channel)
    (h1 : chans ≠ []) (h2 : cats ≠ [])
    (h3 : cats.length - 1 ≤ (letterChangeIdxs chans).length) :
    ∃ p pre post,
      bestPartition cats chans = some (0 :: p) ∧
      combinations (cats.length - 1) (letterChangeIdxs chans) = pre ++ p :: post ∧
      p ∈ combinations (cats.length - 1) (letterChangeIdxs chans) ∧
      (∀ q ∈ combinations (cats.length - 1) (letterChangeIdxs chans),
        unbalancedness ((0 :: p) ++ [chans.length]) ≤
          unbalancedness ((0 :: q) ++ [chans.length])) ∧
      (∀ q ∈ pre,
        unbalancedness ((0 :: p) ++ [chans.length]) <
          unbalancedness ((0 :: q) ++ [chans.length])) := by
  have htake := take_mem_combinations (letterChangeIdxs chans) (cats.length - 1) h3
  cases hc : combinations (cats.length - 1) (letterChangeIdxs chans) with
  | nil =>
    rw [hc] at htake
    cases htake
  | cons q qs =>
    have hmin : minBy (fun p => unbalancedness ((0 :: p) ++ [chans.length])) (q :: qs) =
        some (minByFold (fun p => unbalancedness ((0 :: p) ++ [chans.length])) q qs) := rfl
    obtain ⟨hall, pre, post, hsplit, hpre⟩ :=
      minBy_spec (fun p => unbalancedness ((0 :: p) ++ [chans.length])) (q :: qs) _ hmin
    have e1 : chans.isEmpty = false := by
      cases chans with
      | nil => exact absurd rfl h1
      | cons x xs => rfl
    have e2 : cats.isEmpty = false := by
      cases cats with
      | nil => exact absurd rfl h2
      | cons x xs => rfl
    refine ⟨minByFold (fun p => unbalancedness ((0 :: p) ++ [chans.length])) q qs,
      pre, post, ?_, ?_, ?_, ?_, ?_⟩
    · rw [bestPartition, e1, e2, hc]
      simp [minBy]
    · exact hsplit
    · rw [hsplit]
      exact List.mem_append_right _ (List.mem_cons_self _ _)
    · intro r hr
      exact hall r hr
    · exact hpre

/-! Lemmas for the degenerate-partition claim. -/

theorem assignCats_getLast_two (ca cb : Nat) :
    ∀ (pairs : List (Nat × Nat)) (chans : List Channel),
      (assignCats (pairs ++ [(0, ca), (0, cb)]) chans).getLast? = some (cb, []) := by
  intro pairs
  induction pairs with
  | nil =>
    intro chans
    simp [assignCats]
  | cons p rest ih =>
    intro chans
    obtain ⟨s, c⟩ := p
    have hres : assignCats (((s, c) :: rest) ++ [(0, ca), (0, cb)]) chans
        = (c, chans.drop s) :: assignCats (rest ++ [(0, ca), (0, cb)]) (chans.take s) := rfl
    rw [hres, ← List.singleton_append, List.getLast?_append, ih (chans.take s)]
    rfl

theorem renameAll_none_of_empty_seg :
    ∀ (plan : List (Nat × List Channel)) (cid : Nat),
      (cid, ([] : List Channel)) ∈ plan →
      ∀ cats : List Cat, renameAll cats plan = none := by
  intro plan
  induction plan with
  | nil => intro cid h; cases h
  | cons e rest ih =>
    intro cid h cats
    obtain ⟨cid2, seg⟩ := e
    rcases List.mem_cons.mp h with heq | hmem
    · have hseg : seg = [] := (congrArg Prod.snd heq).symm
      subst hseg
      simp [renameAll, spanName]
    · simp only [renameAll]
      cases spanName seg with
      | none => rfl
      | some nm =>
        cases cats.find? (fun c => c.id == cid2) with
        | none => rfl
        | some cat =>
          by_cases hname : cat.name == nm
          · simp only [hname, if_pos]
            exact ih cid hmem cats
          · simp only [hname, Bool.false_eq_true, if_neg, not_false_iff]
            rw [ih cid hmem (renameCat cats cid2 nm)]

/-! Claim theorems. -/

/-- C5: on categories `[A, B]` and the channels named Apple, Ant, Banana,
Cherry, Date (first letters A, A, B, C, D) in that order,
`balanced_categories` cuts at index 2, assigning `[Apple, Ant]` to category A
and `[Banana, Cherry, Date]` to category B, and the rename step renames
category A to the span "A-A" ("Projects A-A") and category B to the span
"B-D" ("Projects B-D"). -/
theorem c5_scenario :
    bestPartition [1, 2] chans5 = some [0, 2] ∧
    (balanced_categories [1, 2] chans5).bind (fun m => lookupSeg m 1) =
      some [⟨1, "Apple".toList, 9, 0⟩, ⟨2, "Ant".toList, 9, 1⟩] ∧
    (balanced_categories [1, 2] chans5).bind (fun m => lookupSeg m 2) =
      some [⟨3, "Banana".toList, 9, 2⟩, ⟨4, "Cherry".toList, 9, 3⟩, ⟨5, "Date".toList, 9, 4⟩] ∧
    (balanced_categories [1, 2] chans5).bind (fun m => renameAll cats5 m) =
      some ([⟨1, "Projects A-A".toList⟩, ⟨2, "Projects B-D".toList⟩], 2) := by
  decide

/-- C3: the reconciliation is NOT idempotent.  On the snapshot `c3chans`
(managed categories `c3cats`, no external drift) the first `sort_inner` run
completes with 0 renames and 3 moves, but the state it leaves behind has
category 2 ordered `bee, bat, cow` instead of the planned `bat, bee, cow`,
so the second run performs 1 further move instead of the claimed zero. -/
theorem c3_second_run_moves :
    (sort_inner c3cats c3chans).map (fun r => r.2.2) = some (0, 3) ∧
    runTwice c3cats c3chans = some (0, 1) := by
  decide

/-- C6 counterexample: a channel whose last message is exactly 90 days plus
one second old is NOT archived by the inactivity pass (the code compares
`time_since.days <= 90`, and `timedelta.days` floors), refuting both the
claimed boundary behaviour and the claimed strict-excess iff, since the
elapsed time here strictly exceeds the 90-day threshold. -/
theorem c6_counterexample :
    archive_inactive_inner (90 * 86400 + 1) [⟨1, some 0⟩] = some [] ∧
    ((90 * 86400 + 1 : Int) - 0 > 90 * 86400) := by
  decide

/-- C6 amended: a channel is archived iff the floored whole-day count of
`now - last` strictly exceeds 90, i.e. iff at least 91 full days
(91 * 86400 seconds) have elapsed.  Consequently a channel exactly 90 days
old is not archived, one 90 days + 1 second old is ALSO not archived, and
one exactly 91 days old is archived. -/
theorem c6_amended (now last : Int) :
    (isInactive now last = true ↔ 91 * 86400 ≤ now - last) ∧
    isInactive (90 * 86400) 0 = false ∧
    isInactive (90 * 86400 + 1) 0 = false ∧
    isInactive (91 * 86400) 0 = true := by
  refine ⟨?_, by decide, by decide, by decide⟩
  have h : (now - last).fdiv 86400 = (now - last) / 86400 :=
    Int.fdiv_eq_ediv _ (by omega)
  simp only [isInactive, timedeltaDays, h, Bool.not_eq_true', decide_eq_false_iff_not, not_le]
  omega

/-- C7: the skip-and-continue behaviour the claim describes is the code's
clear intent (the `except IndexError: continue` clause exists for exactly
this case) but not its behaviour: unpacking the empty message history raises
`ValueError`, which `except IndexError` does not catch, so a channel with no
messages aborts the whole archiving pass.  At the failing input, the pass
over [fresh channel, no-message channel, 91-days-stale channel] yields no
result — the stale channel is never examined — whereas the same pass without
the no-message channel completes and archives the stale channel. -/
theorem c7_no_message_aborts :
    archive_inactive_inner (91 * 86400)
      [⟨1, some (91 * 86400)⟩, ⟨2, none⟩, ⟨3, some 0⟩] = none ∧
    archive_inactive_inner (91 * 86400)
      [⟨1, some (91 * 86400)⟩, ⟨3, some 0⟩] = some [⟨3, some 0⟩] := by
  decide

/-- C4 counterexample: recording the move of channel 2 from old position 5 to
new position 2 shifts channel 1, whose position 2 is NOT strictly between the
old and the new position (it equals the new position), from 2 to 3 — refuting
the claim that every channel outside the open interval keeps its position. -/
theorem c4_counterexample :
    c4chans.map (fun c => c.position) = [2, 5] ∧
    (recordMove c4chans 2 7 5 2).map (fun c => c.position) = [3, 2] ∧
    ¬((2 : Int) < 2 ∧ (2 : Int) < 5) := by
  decide

/-- C4 amended: a recorded move shifts, by exactly one slot opposite the move
direction, precisely the channels whose position lies in the half-open
interval bounded by the new position (inclusive) and the old position
(exclusive) — `[new, old)` for an upward move, `(old, new]` for a downward
move — and leaves every other channel's position (and its name and category)
unchanged. -/
theorem c4_amended (chans : List Channel) (cid newCat : Nat) (oldPos newPos : Int)
    (c : Channel) (hc : c ∈ chans) (hne : c.id ≠ cid) :
    ∃ c', c' ∈ recordMove chans cid newCat oldPos newPos ∧ c'.id = c.id ∧
      c'.name = c.name ∧ c'.categoryId = c.categoryId ∧
      (oldPos > newPos →
        (newPos ≤ c.position ∧ c.position < oldPos → c'.position = c.position + 1) ∧
        (¬(newPos ≤ c.position ∧ c.position < oldPos) → c'.position = c.position)) ∧
      (oldPos ≤ newPos →
        (oldPos < c.position ∧ c.position ≤ newPos → c'.position = c.position - 1) ∧
        (¬(oldPos < c.position ∧ c.position ≤ newPos) → c'.position = c.position)) := by
  have hbeq : (c.id == cid) = false := by
    simp only [beq_eq_false_iff_ne, ne_eq]
    exact hne
  refine ⟨{ c with position := shiftFor oldPos newPos c.position }, ?_, rfl, rfl, rfl, ?_, ?_⟩
  · have := List.mem_map_of_mem
      (fun d => if d.id == cid then { d with categoryId := newCat, position := newPos }
                else { d with position := shiftFor oldPos newPos d.position }) hc
    simpa only [recordMove, hbeq, if_neg, Bool.false_eq_true] using this
  · intro hgt
    constructor
    · intro hin
      simp only [shiftFor, if_pos hgt, if_pos hin]
    · intro hout
      simp only [shiftFor, if_pos hgt, if_neg hout]
  · intro hle
    have hgt : ¬ oldPos > newPos := by omega
    constructor
    · intro hin
      simp only [shiftFor, if_neg hgt, if_pos hin]
    · intro hout
      simp only [shiftFor, if_neg hgt, if_neg hout]

/-- C4 amended witness: the amended frame property applied to channel 1 of
the counterexample state (an upward move from 5 to 2; position 2 lies in
`[2, 5)` and indeed shifts to 3). -/
theorem c4_amended_witness :
    ∃ c', c' ∈ recordMove c4chans 2 7 5 2 ∧ c'.id = (1 : Nat) ∧
      c'.name = "a".toList ∧ c'.categoryId = (7 : Nat) ∧
      ((5 : Int) > 2 →
        ((2 : Int) ≤ 2 ∧ (2 : Int) < 5 → c'.position = 2 + 1) ∧
        (¬((2 : Int) ≤ 2 ∧ (2 : Int) < 5) → c'.position = 2)) ∧
      ((5 : Int) ≤ 2 →
        ((5 : Int) < 2 ∧ (2 : Int) ≤ 2 → c'.position = 2 - 1) ∧
        (¬((5 : Int) < 2 ∧ (2 : Int) ≤ 2) → c'.position = 2)) :=
  c4_amended c4chans 2 7 5 2 ⟨1, "a".toList, 7, 2⟩ (by decide) (by decide)

/-- C10: a recorded move together with its accompanying range shift preserves
injectivity of the in-memory positions: if the managed channels occupy
pairwise distinct positions (and have pairwise distinct ids) before the move
of a channel `mv` to position `newPos`, they occupy pairwise distinct
positions afterwards. -/
theorem c10_move_preserves_injectivity (chans : List Channel) (mv : Channel)
    (newCat : Nat) (newPos : Int) (hmv : mv ∈ chans)
    (hids : (chans.map (fun c => c.id)).Nodup)
    (hpos : (chans.map (fun c => c.position)).Nodup) :
    ((recordMove chans mv.id newCat mv.position newPos).map (fun c => c.position)).Nodup := by
  have hP : chans.Pairwise (fun a b => a.position ≠ b.position) := List.pairwise_map.mp hpos
  have hI : chans.Pairwise (fun a b => a.id ≠ b.id) := List.pairwise_map.mp hids
  have hIsym : ∀ a ∈ chans, a.id = mv.id → a = mv := by
    intro a ha haid
    by_contra hne
    exact (hI.forall (fun x y h => Ne.symm h) ha hmv hne) haid
  have hPmv : ∀ a ∈ chans, a ≠ mv → a.position ≠ mv.position := by
    intro a ha hne
    exact hP.forall (fun x y h => Ne.symm h) ha hmv hne
  have hmap : (recordMove chans mv.id newCat mv.position newPos).map (fun c => c.position) =
      chans.map (fun c => if c.id == mv.id then newPos
        else shiftFor mv.position newPos c.position) := by
    simp only [recordMove, List.map_map]
    apply List.map_congr_left
    intro a _
    by_cases h : (a.id == mv.id) = true
    · have he : a.id = mv.id := by simpa using h
      simp [Function.comp, h, he]
    · have he : ¬ a.id = mv.id := by simpa using h
      simp [Function.comp, h, he]
  rw [hmap]
  apply List.pairwise_map.mpr
  have hcomb := List.Pairwise.and_mem.mp (hP.and hI)
  refine hcomb.imp ?_
  rintro a b ⟨ha, hb, hpab, hiab⟩
  by_cases haid : (a.id == mv.id) = true
  · have haeq : a = mv := hIsym a ha (by simpa using haid)
    have hbid : (b.id == mv.id) = false := by
      simp only [beq_eq_false_iff_ne, ne_eq]
      intro hbeq
      exact hiab (by rw [hbeq]; simpa using haid)
    simp only [haid, if_pos, hbid, Bool.false_eq_true, if_neg, not_false_iff]
    intro hcontra
    exact shiftFor_ne_new mv.position newPos b.position
      (hPmv b hb (fun hbeq => hiab (by rw [haeq, hbeq]))) hcontra.symm
  · by_cases hbid : (b.id == mv.id) = true
    · have hbeq : b = mv := hIsym b hb (by simpa using hbid)
      simp only [haid, Bool.false_eq_true, if_neg, not_false_iff, hbid, if_pos]
      exact shiftFor_ne_new mv.position newPos a.position
        (hPmv a ha (fun haeq => hiab (by rw [haeq, hbeq])))
    · simp only [haid, hbid, Bool.false_eq_true, if_neg, not_false_iff]
      have hamv : a ≠ mv := fun h => (by simpa using haid : a.id ≠ mv.id) (by rw [h])
      have hbmv : b ≠ mv := fun h => (by simpa using hbid : b.id ≠ mv.id) (by rw [h])
      exact shiftFor_inj mv.position newPos a.position b.position
        (hPmv a ha hamv) (hPmv b hb hbmv) hpab

/-- C10 witness: the injectivity preservation applied to the concrete
two-channel state, moving channel 2 from position 5 to position 2. -/
theorem c10_witness :
    ((recordMove c4chans 2 7 5 2).map (fun c => c.position)).Nodup := by
  have h := c10_move_preserves_injectivity c4chans ⟨2, "b".toList, 7, 5⟩ 7 2
    (by decide) (by decide) (by decide)
  exact h

/-- C2: among all choices of `len(categories) - 1` cut points from the
candidate set, `balanced_categories` (through `bestPartition`) selects a
choice minimizing the imbalance score — the sum over adjacent pairs of
consecutive boundaries (`0` and the list length included as implicit outer
boundaries) of the squared segment size — and, among choices with the
minimal score, returns the one enumerated first in boundary-index order by
`itertools.combinations`. -/
theorem c2_minimal_first_cut_choice (cats : List Nat) (chans : List Channel)
    (h1 : chans ≠ []) (hk : 1 ≤ cats.length)
    (h3 : cats.length - 1 ≤ (letterChangeIdxs chans).length) :
    ∃ p pre post,
      bestPartition cats chans = some (0 :: p) ∧
      balanced_categories cats chans =
        some (assignCats (((0 :: p).zip cats).reverse) chans) ∧
      combinations (cats.length - 1) (letterChangeIdxs chans) = pre ++ p :: post ∧
      (∀ q ∈ combinations (cats.length - 1) (letterChangeIdxs chans),
        unbalancedness ((0 :: p) ++ [chans.length]) ≤
          unbalancedness ((0 :: q) ++ [chans.length])) ∧
      (∀ q ∈ pre,
        unbalancedness ((0 :: p) ++ [chans.length]) <
          unbalancedness ((0 :: q) ++ [chans.length])) := by
  have h2 : cats ≠ [] := by
    cases cats with
    | nil => simp at hk
    | cons x xs => simp
  obtain ⟨p, pre, post, ha, hb, _, hc, hd⟩ := bestPartition_spec cats chans h1 h2 h3
  refine ⟨p, pre, post, ha, ?_, hb, hc, hd⟩
  rw [balanced_categories, ha]

/-- C2 witness: the cut-point selection at the concrete sorted channel list
`chansW` with two categories. -/
theorem c2_witness :
    ∃ p pre post,
      bestPartition [1, 2] chansW = some (0 :: p) ∧
      balanced_categories [1, 2] chansW =
        some (assignCats (((0 :: p).zip [1, 2]).reverse) chansW) ∧
      combinations ([1, 2].length - 1) (letterChangeIdxs chansW) = pre ++ p :: post ∧
      (∀ q ∈ combinations ([1, 2].length - 1) (letterChangeIdxs chansW),
        unbalancedness ((0 :: p) ++ [chansW.length]) ≤
          unbalancedness ((0 :: q) ++ [chansW.length])) ∧
      (∀ q ∈ pre,
        unbalancedness ((0 :: p) ++ [chansW.length]) <
          unbalancedness ((0 :: q) ++ [chansW.length])) :=
  c2_minimal_first_cut_choice [1, 2] chansW (by decide) (by decide) (by decide)

/-- C1: for every non-empty channel list sorted by name and category list of
`k ≥ 1` categories (with distinct ids, as the returned dict is keyed by id)
such that `k - 1` does not exceed the number of candidate cut points,
`balanced_categories` succeeds and its partition consists of `k` segments
whose concatenation in the given category order is exactly the input list,
and no segment boundary falls between two adjacent channels sharing the same
uppercase first letter: whenever the segments are split into a non-empty
prefix and suffix, the channels flanking the boundary have different
uppercase first letters. -/
theorem c1_partition_correct (cats : List Nat) (chans : List Channel)
    (hne : chans ≠ []) (hsorted : sortedByName chans) (hnodup : cats.Nodup)
    (hk : 1 ≤ cats.length)
    (hcuts : cats.length - 1 ≤ (letterChangeIdxs chans).length) :
    ∃ m, balanced_categories cats chans = some m ∧
      (planSegs m).length = cats.length ∧
      (planSegs m).flatten = chans ∧
      (∀ sA sB, planSegs m = sA ++ sB → sA ≠ [] → sB ≠ [] →
        ∀ a b, sA.flatten.getLast? = some a → sB.flatten.head? = some b →
          firstLetter a.name ≠ firstLetter b.name) := by
  have h2 : cats ≠ [] := by
    cases cats with
    | nil => simp at hk
    | cons x xs => simp
  obtain ⟨p, pre, post, ha, hsplitc, hpc, hmin, hfirst⟩ :=
    bestPartition_spec cats chans hne h2 hcuts
  obtain ⟨hsub, hplen⟩ := mem_combinations (letterChangeIdxs chans) (cats.length - 1) p hpc
  cases cats with
  | nil => exact absurd rfl h2
  | cons c0 cs =>
    have hplen' : p.length = cs.length := by
      simp only [List.length_cons] at hplen ⊢
      omega
    have hzip : ((0 :: p).zip (c0 :: cs)).reverse = (p.zip cs).reverse ++ [(0, c0)] := by
      rw [List.zip_cons_cons, List.reverse_cons]
    have hm : balanced_categories (c0 :: cs) chans =
        some (assignCats ((p.zip cs).reverse ++ [(0, c0)]) chans) := by
      rw [balanced_categories, ha]
      show some (assignCats (((0 :: p).zip (c0 :: cs)).reverse) chans) = _
      rw [hzip]
    refine ⟨assignCats ((p.zip cs).reverse ++ [(0, c0)]) chans, hm, ?_, ?_, ?_⟩
    · simp only [planSegs, List.length_reverse, List.length_map, assignCats_length,
        List.length_append, List.length_reverse, List.length_zip, List.length_cons,
        hplen']
      simp
    · exact assignCats_flatten ((p.zip cs).reverse) c0 chans
    · intro sA sB hsplitSegs hA hB a b hlast hhead
      have hfst : ((p.zip cs).reverse ++ [(0, c0)]).map Prod.fst = p.reverse ++ [0] := by
        simp only [List.map_append, List.map_reverse, List.map_cons, List.map_nil]
        rw [List.map_fst_zip p cs (le_of_eq hplen')]
      have hp_lt : p.Chain' (fun a b => a < b) :=
        (letterChangeIdxs_chain chans).sublist hsub
      have h0p : (0 :: p).Chain' (fun a b => a ≤ b) :=
        List.chain'_cons'.mpr
          ⟨fun y _ => Nat.zero_le y, hp_lt.imp (fun a b h => le_of_lt h)⟩
      have hchain : (((p.zip cs).reverse ++ [(0, c0)]).map Prod.fst).Chain'
          (fun a b => b ≤ a) := by
        rw [hfst]
        have : (p.reverse ++ [0]) = (0 :: p).reverse := by
          rw [List.reverse_cons]
        rw [this, List.chain'_reverse]
        exact h0p
      have hboundx : ∀ x ∈ ((p.zip cs).reverse ++ [(0, c0)]).map Prod.fst,
          x ≤ chans.length := by
        rw [hfst]
        intro x hx
        rcases List.mem_append.mp hx with hx | hx
        · have hxp : x ∈ p := List.mem_reverse.mp hx
          exact le_of_lt
            (letterChangeIdxs_lt_length chans hne x (hsub.subset hxp))
        · have : x = 0 := by simpa using hx
          subst this
          exact Nat.zero_le _
      have hsegs : ((assignCats ((p.zip cs).reverse ++ [(0, c0)]) chans).map
          (fun e => e.2)).reverse = sA ++ sB := hsplitSegs
      obtain ⟨cut, hcutmem, hAf, hBf⟩ :=
        assignCats_split ((p.zip cs).reverse) c0 chans sA sB hsegs hA hB hchain hboundx
      have hcutp : cut ∈ p := by
        have : ((p.zip cs).reverse).map Prod.fst = p.reverse := by
          rw [List.map_reverse, List.map_fst_zip p cs (le_of_eq hplen')]
        rw [this] at hcutmem
        exact List.mem_reverse.mp hcutmem
      have hcand : cut ∈ letterChangeIdxs chans := hsub.subset hcutp
      have hcutlt : cut < chans.length := letterChangeIdxs_lt_length chans hne cut hcand
      rw [hAf] at hlast
      rw [hBf, List.head?_drop] at hhead
      have hcutpos : 0 < cut := by
        rcases Nat.eq_zero_or_pos cut with rfl | h
        · simp at hlast
        · exact h
      have hlast' : chans[cut - 1]? = some a := by
        rw [List.getLast?_eq_getElem?] at hlast
        have hlen : (chans.take cut).length = cut := by
          simp only [List.length_take]
          omega
        rw [hlen] at hlast
        rwa [List.getElem?_take_of_lt (by omega : cut - 1 < cut)] at hlast
      rcases letterChangeIdxs_spec chans hne cut hcand with rfl | ⟨_, a2, b2, ha2, hb2, hne2⟩
      · omega
      · rw [hlast'] at ha2
        rw [hhead] at hb2
        have haa : a2 = a := by
          injection ha2.symm
        have hbb : b2 = b := by
          injection hb2.symm
        subst haa
        subst hbb
        exact fun h => hne2 h.symm

/-- C1 witness: the partition shape on the concrete sorted channel list
`chansW` with two categories with distinct ids. -/
theorem c1_witness :
    ∃ m, balanced_categories [1, 2] chansW = some m ∧
      (planSegs m).length = 2 ∧ (planSegs m).flatten = chansW := by
  obtain ⟨m, h1, h2, h3, _⟩ :=
    c1_partition_correct [1, 2] chansW (by decide)
      (by unfold chansW; simp only [List.chain'_cons, List.chain'_singleton]; decide)
      (by decide) (by decide) (by decide)
  exact ⟨m, h1, h2, h3⟩

/-- C9: whenever the number of candidate cut points equals
`len(categories) - 1` (for example all channels share one first letter and
there are two categories), index 0 is among the chosen cut points, so
`balanced_categories` succeeds and maps the first category to the empty
channel list; the rename step of `sort_inner`, which indexes the first and
last channel of every slice, then fails on that empty slice (Python
`IndexError`), for any category records. -/
theorem c9_empty_segment_breaks_rename (cats : List Nat) (chans : List Channel)
    (hne : chans ≠ []) (hk : 2 ≤ cats.length)
    (heq : (letterChangeIdxs chans).length = cats.length - 1) :
    ∃ m, balanced_categories cats chans = some m ∧
      (∃ c0 cs', cats = c0 :: cs' ∧ (c0, ([] : List Channel)) ∈ m) ∧
      ∀ catRecords : List Cat, renameAll catRecords m = none := by
  have e1 : chans.isEmpty = false := by
    cases chans with
    | nil => exact absurd rfl hne
    | cons x xs => rfl
  have e2 : cats.isEmpty = false := by
    cases cats with
    | nil => simp at hk
    | cons x xs => rfl
  have hcomb : combinations (cats.length - 1) (letterChangeIdxs chans) =
      [letterChangeIdxs chans] := by
    rw [← heq]
    exact combinations_full (letterChangeIdxs chans)
  have hbest : bestPartition cats chans = some (0 :: letterChangeIdxs chans) := by
    rw [bestPartition, e1, e2, hcomb]
    simp [minBy, minByFold]
  cases chans with
  | nil => exact absurd rfl hne
  | cons ch chs =>
    cases cats with
    | nil => simp at hk
    | cons c0 cs =>
      cases cs with
      | nil => simp at hk
      | cons c1 cs' =>
        have hcand : letterChangeIdxs (ch :: chs) =
            0 :: letterChangesFrom (firstLetter ch.name) 0 (ch :: chs) := rfl
        have hzip : (((0 :: letterChangeIdxs (ch :: chs))).zip
            (c0 :: c1 :: cs')).reverse =
            ((letterChangesFrom (firstLetter ch.name) 0 (ch :: chs)).zip cs').reverse
              ++ [(0, c1), (0, c0)] := by
          rw [hcand, List.zip_cons_cons, List.zip_cons_cons, List.reverse_cons,
            List.reverse_cons, List.append_assoc]
          rfl
        have hm : balanced_categories (c0 :: c1 :: cs') (ch :: chs) =
            some (assignCats
              (((letterChangesFrom (firstLetter ch.name) 0 (ch :: chs)).zip cs').reverse
                ++ [(0, c1), (0, c0)]) (ch :: chs)) := by
          rw [balanced_categories, hbest]
          show some (assignCats (((0 :: letterChangeIdxs (ch :: chs)).zip
            (c0 :: c1 :: cs')).reverse) (ch :: chs)) = _
          rw [hzip]
        refine ⟨_, hm, ⟨c0, c1 :: cs', rfl, ?_⟩, ?_⟩
        · exact List.mem_of_getLast?_eq_some
            (assignCats_getLast_two c1 c0 _ (ch :: chs))
        · intro catRecords
          refine renameAll_none_of_empty_seg _ c0 ?_ catRecords
          exact List.mem_of_getLast?_eq_some
            (assignCats_getLast_two c1 c0 _ (ch :: chs))

/-- C9 witness: two categories and two channels sharing the first letter
"a"; the partition succeeds with an empty first slice and the rename step
fails. -/
theorem c9_witness :
    ∃ m, balanced_categories [1, 2] c9chans = some m ∧ renameAll c9cats m = none := by
  obtain ⟨m, h1, _, h3⟩ :=
    c9_empty_segment_breaks_rename [1, 2] c9chans (by decide) (by decide) (by decide)
  exact ⟨m, h1, h3 c9cats⟩

/-- Negative transitivity of the lexicographic order: if `a` is not less
than `b` and `b` is not less than `c` then `a` is not less than `c`. -/
theorem nameLt_neg_trans : ∀ a b c : Name, nameLt a b = false → nameLt b c = false →
    nameLt a c = false := by
  intro a
  induction a with
  | nil =>
    intro b c hab hbc
    cases b with
    | nil => exact hbc
    | cons y bs => simp [nameLt] at hab
  | cons x as ih =>
    intro b c hab hbc
    cases b with
    | nil =>
      cases c with
      | nil => rfl
      | cons z cs => simp [nameLt] at hbc
    | cons y bs =>
      cases c with
      | nil => rfl
      | cons z cs =>
        simp only [nameLt] at hab hbc ⊢
        by_cases hxy : x < y
        · simp [hxy] at hab
        · by_cases hyz : y < z
          · simp [hyz] at hbc
          · have hzy : z ≤ y := le_of_not_lt hyz
            have hyx : y ≤ x := le_of_not_lt hxy
            have hxz : ¬ x < z := by
              intro h
              exact absurd (lt_of_lt_of_le (lt_of_lt_of_le h hzy) hyx) (lt_irrefl x)
            rw [if_neg hxz]
            by_cases hzx : z < x
            · rw [if_pos hzx]
            · rw [if_neg hzx]
              have hxz' : x = z := le_antisymm (le_of_not_lt hzx)
                (le_trans hzy hyx)
              subst hxz'
              have hxy' : x = y := le_antisymm hzy hyx
              subst hxy'
              rw [if_neg (lt_irrefl x), if_neg (lt_irrefl x)] at hab hbc
              exact ih bs cs hab hbc

/-- A strictly-greater name stays strictly greater across a `nameLe` step. -/
theorem nameLt_of_lt_of_le (x c d : Name) (h1 : nameLt x c = true)
    (h2 : nameLe c d = true) : nameLt x d = true := by
  cases h : nameLt x d with
  | true => rfl
  | false =>
    have hdc : nameLt d c = false := by
      simpa [nameLe] using h2
    rw [nameLt_neg_trans x d c h hdc] at h1
    cases h1

/-- Every later element of a name-sorted list is `nameLe`-above the head. -/
theorem sorted_head_le : ∀ (c : Channel) (cs : List Channel),
    sortedByName (c :: cs) → ∀ d ∈ cs, nameLe c.name d.name = true := by
  intro c cs
  induction cs generalizing c with
  | nil => intro _ d hd; cases hd
  | cons e rest ih =>
    intro hs d hd
    have h1 : nameLe c.name e.name = true := (List.chain'_cons.mp hs).1
    rcases List.mem_cons.mp hd with rfl | hd
    · exact h1
    · have h2 : nameLe e.name d.name = true := ih e (List.chain'_cons.mp hs).2 d hd
      have : nameLt d.name c.name = false := by
        have he1 : nameLt e.name c.name = false := by simpa [nameLe] using h1
        have he2 : nameLt d.name e.name = false := by simpa [nameLe] using h2
        exact nameLt_neg_trans d.name e.name c.name he2 he1
      simpa [nameLe] using this

/-- On a name-sorted peer list, filtering the peers at most / strictly above
the probe name is the same as taking / dropping the sorted prefix. -/
theorem sorted_break (chName : Name) :
    ∀ peers : List Channel, sortedByName peers →
      peers.filter (fun c => !(nameLt chName c.name)) =
        peers.takeWhile (fun c => !(nameLt chName c.name)) ∧
      peers.filter (fun c => nameLt chName c.name) =
        peers.dropWhile (fun c => !(nameLt chName c.name)) := by
  intro peers
  induction peers with
  | nil => intro _; exact ⟨rfl, rfl⟩
  | cons c cs ih =>
    intro hs
    have htail : sortedByName cs := hs.tail
    obtain ⟨ih1, ih2⟩ := ih htail
    by_cases hgt : nameLt chName c.name = true
    · -- the head is already strictly greater: everything after is greater too
      have hall : ∀ d ∈ cs, nameLt chName d.name = true := by
        intro d hd
        exact nameLt_of_lt_of_le chName c.name d.name hgt (sorted_head_le c cs hs d hd)
      constructor
      · rw [List.filter_cons, List.takeWhile_cons]
        simp only [hgt, Bool.not_true, Bool.false_eq_true, if_neg, not_false_iff]
        exact List.filter_eq_nil_iff.mpr (fun d hd => by simp [hall d hd])
      · rw [List.filter_cons, List.dropWhile_cons]
        simp only [hgt, Bool.not_true, Bool.false_eq_true, if_neg, not_false_iff,
          if_pos]
        congr 1
        exact List.filter_eq_self.mpr (fun d hd => by simp [hall d hd])
    · have hgt' : nameLt chName c.name = false := by
        cases h : nameLt chName c.name with
        | true => exact absurd h hgt
        | false => rfl
      constructor
      · rw [List.filter_cons, List.takeWhile_cons]
        simp only [hgt', Bool.not_false, if_pos]
        rw [ih1]
      · rw [List.filter_cons, List.dropWhile_cons]
        simp only [hgt', Bool.not_false, if_pos, Bool.false_eq_true, if_neg,
          not_false_iff]
        exact ih2

/-- Inserting the head of an already-sorted list returns the list itself. -/
theorem insertByName_sorted (c : Channel) (l : List Channel)
    (h : sortedByName (c :: l)) : insertByName c l = c :: l := by
  cases l with
  | nil => rfl
  | cons d ds =>
    have h1 : nameLe c.name d.name = true := (List.chain'_cons.mp h).1
    simp [insertByName, h1]

/-- Sorting an already name-sorted list is the identity. -/
theorem sortByName_of_sorted : ∀ l : List Channel, sortedByName l → sortByName l = l := by
  intro l
  induction l with
  | nil => intro _; rfl
  | cons c cs ih =>
    intro hs
    have : sortByName cs = cs := ih hs.tail
    simp only [sortByName, this]
    exact insertByName_sorted c cs hs

/-- Prepending to a non-empty list does not change its last element. -/
theorem getLast?_cons_of_ne_nil {α : Type _} (c : α) (l : List α) (h : l ≠ []) :
    (c :: l).getLast? = l.getLast? := by
  rcases List.eq_nil_or_concat l with rfl | ⟨l2, b, rfl⟩
  · exact absurd rfl h
  · rw [List.concat_eq_append, ← List.cons_append, List.getLast?_concat,
      List.getLast?_concat]

/-- The scanning loop of `reposition_channel`, characterised by the
take/drop split of its input at the first strictly greater peer. -/
theorem repositionLoop_spec (chName : Name) :
    ∀ (peers : List Channel) (cat0 : Option Nat) (pos0 : Int),
      (∀ d, (peers.dropWhile (fun c => !(nameLt chName c.name))).head? = some d →
        (repositionLoop chName cat0 pos0 peers).2 = d.position ∧
        (repositionLoop chName cat0 pos0 peers).1 =
          (match (peers.takeWhile (fun c => !(nameLt chName c.name))).getLast? with
           | some l => some l.categoryId
           | none => if cat0.isNone then some d.categoryId else cat0)) ∧
      (peers.dropWhile (fun c => !(nameLt chName c.name)) = [] →
        (match (peers.takeWhile (fun c => !(nameLt chName c.name))).getLast? with
         | some l => (repositionLoop chName cat0 pos0 peers).2 = l.position + 1 ∧
                     (repositionLoop chName cat0 pos0 peers).1 = some l.categoryId
         | none => (repositionLoop chName cat0 pos0 peers).2 = pos0 + 1 ∧
                   (repositionLoop chName cat0 pos0 peers).1 = cat0)) := by
  intro peers
  induction peers with
  | nil =>
    intro cat0 pos0
    constructor
    · intro d hd
      simp at hd
    · intro _
      exact ⟨rfl, rfl⟩
  | cons c cs ih =>
    intro cat0 pos0
    by_cases hgt : nameLt chName c.name = true
    · have hdw : (c :: cs).dropWhile (fun x => !(nameLt chName x.name)) = c :: cs := by
        rw [List.dropWhile_cons]
        simp [hgt]
      have htw : (c :: cs).takeWhile (fun x => !(nameLt chName x.name)) = [] := by
        rw [List.takeWhile_cons]
        simp [hgt]
      have hloop : repositionLoop chName cat0 pos0 (c :: cs) =
          ((if cat0.isNone then some c.categoryId else cat0), c.position) := by
        simp [repositionLoop, hgt]
      constructor
      · intro d hd
        rw [hdw] at hd
        have hdc : d = c := by
          simpa using hd.symm
        subst hdc
        rw [hloop, htw]
        exact ⟨rfl, rfl⟩
      · intro hcontra
        rw [hdw] at hcontra
        cases hcontra
    · have hgt' : nameLt chName c.name = false := by
        cases h : nameLt chName c.name with
        | true => exact absurd h hgt
        | false => rfl
      have hdw : (c :: cs).dropWhile (fun x => !(nameLt chName x.name)) =
          cs.dropWhile (fun x => !(nameLt chName x.name)) := by
        rw [List.dropWhile_cons]
        simp [hgt']
      have htw : (c :: cs).takeWhile (fun x => !(nameLt chName x.name)) =
          c :: cs.takeWhile (fun x => !(nameLt chName x.name)) := by
        rw [List.takeWhile_cons]
        simp [hgt']
      have hloop : repositionLoop chName cat0 pos0 (c :: cs) =
          repositionLoop chName (some c.categoryId) c.position cs := by
        simp [repositionLoop, hgt']
      obtain ⟨ihd, ihe⟩ := ih (some c.categoryId) c.position
      constructor
      · intro d hd
        rw [hdw] at hd
        obtain ⟨ih1, ih2⟩ := ihd d hd
        rw [hloop, htw]
        refine ⟨ih1, ?_⟩
        rw [ih2]
        cases htcs : (cs.takeWhile (fun x => !(nameLt chName x.name))).getLast? with
        | some l =>
          have hne : cs.takeWhile (fun x => !(nameLt chName x.name)) ≠ [] := by
            intro hx
            rw [hx] at htcs
            cases htcs
          rw [getLast?_cons_of_ne_nil c _ hne, htcs]
        | none =>
          have hnil : cs.takeWhile (fun x => !(nameLt chName x.name)) = [] :=
            List.getLast?_eq_none_iff.mp htcs
          rw [hnil]
          simp
      · intro hempty
        rw [hdw] at hempty
        have hres := ihe hempty
        rw [hloop, htw]
        cases htcs : (cs.takeWhile (fun x => !(nameLt chName x.name))).getLast? with
        | some l =>
          rw [htcs] at hres
          have hne : cs.takeWhile (fun x => !(nameLt chName x.name)) ≠ [] := by
            intro hx
            rw [hx] at htcs
            cases htcs
          rw [getLast?_cons_of_ne_nil c _ hne, htcs]
          exact hres
        | none =>
          rw [htcs] at hres
          have hnil : cs.takeWhile (fun x => !(nameLt chName x.name)) = [] :=
            List.getLast?_eq_none_iff.mp htcs
          rw [hnil]
          simp only [List.getLast?_singleton]
          exact hres

/-- If the scan never reaches a failing element, the kept prefix is the
whole list. -/
theorem takeWhile_eq_self_of_dropWhile_nil {α : Type _} (p : α → Bool) :
    ∀ l : List α, l.dropWhile p = [] → l.takeWhile p = l := by
  intro l
  induction l with
  | nil => intro _; rfl
  | cons a t ih =>
    intro h
    rw [List.dropWhile_cons] at h
    by_cases hp : p a = true
    · rw [if_pos hp] at h
      rw [List.takeWhile_cons, if_pos hp, ih h]
    · rw [if_neg hp] at h
      cases h

/-- C8: for every non-empty peer list sorted by name, the single-channel
repositioner targets the category of the last peer whose name is
alphabetically ≤ the channel's name and the position of the first peer
whose name is strictly greater; if the channel sorts after all peers, the
target position is one past the last peer's position and the target category
is the last peer's category. -/
theorem c8_reposition_target (chName : Name) (peers : List Channel)
    (hne : peers ≠ []) (hs : sortedByName peers) :
    (∀ l, (peers.filter (fun c => nameLe c.name chName)).getLast? = some l →
        (reposition_channel chName peers).1 = some l.categoryId) ∧
    (∀ g, (peers.filter (fun c => nameLt chName c.name)).head? = some g →
        (reposition_channel chName peers).2 = g.position) ∧
    (peers.filter (fun c => nameLt chName c.name) = [] →
      ∀ l, peers.getLast? = some l →
        (reposition_channel chName peers).2 = l.position + 1 ∧
        (reposition_channel chName peers).1 = some l.categoryId) := by
  have hsort : sortByName peers = peers := sortByName_of_sorted peers hs
  have hrc : reposition_channel chName peers = repositionLoop chName none 0 peers := by
    rw [reposition_channel, hsort]
  obtain ⟨hbreak1, hbreak2⟩ := sorted_break chName peers hs
  obtain ⟨hspec1, hspec2⟩ := repositionLoop_spec chName peers none 0
  have hfeq : peers.filter (fun c => nameLe c.name chName) =
      peers.filter (fun c => !(nameLt chName c.name)) := rfl
  refine ⟨?_, ?_, ?_⟩
  · intro l hl
    rw [hfeq, hbreak1] at hl
    cases hdw : peers.dropWhile (fun c => !(nameLt chName c.name)) with
    | nil =>
      have hres := hspec2 hdw
      rw [hl] at hres
      rw [hrc]
      exact hres.2
    | cons d rest =>
      obtain ⟨_, hc⟩ := hspec1 d (by rw [hdw]; rfl)
      rw [hl] at hc
      rw [hrc]
      exact hc
  · intro g hg
    rw [hbreak2] at hg
    obtain ⟨hp, _⟩ := hspec1 g hg
    rw [hrc]
    exact hp
  · intro hnil l hl
    rw [hbreak2] at hnil
    have htw : peers.takeWhile (fun c => !(nameLt chName c.name)) = peers :=
      takeWhile_eq_self_of_dropWhile_nil _ peers hnil
    have hres := hspec2 hnil
    rw [htw, hl] at hres
    rw [hrc]
    exact hres

/-- C8 witness: repositioning "Mango" among the sorted peers Apple, Banana
(category 7), Peach, Zebra (category 8): target category is Banana's (the
last peer ≤ "Mango") and target position is Peach's (the first greater
peer). -/
theorem c8_witness :
    (reposition_channel "Mango".toList mangoPeers).1 = some 7 ∧
    (reposition_channel "Mango".toList mangoPeers).2 = 2 := by
  have h := c8_reposition_target "Mango".toList mangoPeers (by decide)
    (by unfold mangoPeers; simp only [List.chain'_cons, List.chain'_singleton]; decide)
  exact ⟨h.1 ⟨2, "Banana".toList, 7, 1⟩ (by decide),
    h.2.1 ⟨3, "Peach".toList, 8, 2⟩ (by decide)⟩
